import Mathlib

/-!
Verification development for the `novel_knowledge_base` repository.

This file shallowly embeds the two core components of the repository —
the memoized computation cache (`src/utils/cache/cache_manager.py`) and
the semantic chunker (`src/core/text/chunking.py`) — as executable Lean
definitions, and proves or refutes the specification's claims about them.

Modelling conventions:
* Python `time.time()` values and token counts are modelled as `Int`;
  every operation that reads the clock takes the current time `now`
  explicitly.
* Python dictionaries are modelled as insertion-ordered association
  lists (`List (String × _)`), matching CPython's ordered-dict
  semantics: assignment to an existing key updates in place, assignment
  to a fresh key appends, and iteration order is insertion order.
* External collaborators (the token estimator, the boundary arbiter,
  the regex engine) are parameters of the embedded functions, exactly
  the points where the Python code calls `llm_client` or `re.search`.
-/

namespace NovelKB

/-! ## Cache layer: `src/utils/cache/cache_manager.py` -/

/-- Embeds `CacheEntry` (cache_manager.py lines 17-25): a stored value,
its creation timestamp, and an optional time-to-live. -/
structure CacheEntry (α : Type) where
  value : α
  created_at : Int
  ttl : Option Int := none
  deriving Repr, DecidableEq

/-- Embeds `CacheEntry.is_expired` (line 24-25):
`self.ttl is not None and self.created_at + self.ttl < time.time()`.
The current clock reading is the explicit argument `now`. -/
def CacheEntry.is_expired {α : Type} (e : CacheEntry α) (now : Int) : Bool :=
  match e.ttl with
  | none => false
  | some t => decide (e.created_at + t < now)

/-- Association-list lookup, modelling Python `key in dict` /
`dict[key]` access over the insertion-ordered entry list. -/
def lookupKey {β : Type} (k : String) : List (String × β) → Option β
  | [] => none
  | (k', v) :: rest => if k' = k then some v else lookupKey k rest

/-- Association-list removal, modelling Python `del dict[key]` /
`dict.pop(key, None)`: removes the first (only) binding of `k`,
preserving the order of the remaining entries. -/
def eraseKey {β : Type} (k : String) : List (String × β) → List (String × β)
  | [] => []
  | (k', v) :: rest => if k' = k then rest else (k', v) :: eraseKey k rest

/-- Association-list update, modelling Python `dict[key] = value`:
if the key is present its value is replaced in place, otherwise the
new binding is appended at the end. -/
def setKey {β : Type} (k : String) (v : β) : List (String × β) → List (String × β)
  | [] => [(k, v)]
  | (k', v') :: rest => if k' = k then (k, v) :: rest else (k', v') :: setKey k v rest

/-- Embeds `MemoryCacheBackend` (cache_manager.py lines 103-151).
The `_cache` dict is an insertion-ordered association list; the
`threading.Lock` serialises operations and has no further observable
effect in this single-threaded model. -/
structure MemoryCacheBackend (α : Type) where
  cache : List (String × CacheEntry α)
  max_size : Nat
  deriving Repr

/-- Embeds `MemoryCacheBackend.__init__(max_size)` (lines 106-109). -/
def MemoryCacheBackend.empty (α : Type) (max_size : Nat := 1000) : MemoryCacheBackend α :=
  { cache := [], max_size := max_size }

/-- Embeds `_cleanup_expired_entries` (lines 111-115): delete every
expired entry, preserving the order of the survivors. -/
def MemoryCacheBackend.cleanup_expired {α : Type}
    (b : MemoryCacheBackend α) (now : Int) : MemoryCacheBackend α :=
  { b with cache := b.cache.filter (fun kv => !kv.2.is_expired now) }

/-- The key Python's `min(self._cache.keys(), key=lambda k: self._cache[k].created_at)`
returns: the first key (in insertion order) whose entry has the minimal
`created_at` (Python `min` keeps the earliest of tied elements). -/
def oldestKey {α : Type} : List (String × CacheEntry α) → Option String
  | [] => none
  | (k, e) :: rest =>
    match oldestKey rest with
    | none => some k
    | some k' =>
      match lookupKey k' rest with
      | none => some k
      | some e' => if e'.created_at < e.created_at then some k' else some k

/-- Embeds `_evict_lru` (lines 117-121): only when the entry count
strictly exceeds `max_size`, delete the single entry with the oldest
`created_at`. -/
def MemoryCacheBackend.evict_lru {α : Type}
    (b : MemoryCacheBackend α) : MemoryCacheBackend α :=
  if b.cache.length > b.max_size then
    match oldestKey b.cache with
    | none => b
    | some k => { b with cache := eraseKey k b.cache }
  else b

/-- Embeds `MemoryCacheBackend.delete` (lines 144-146). -/
def MemoryCacheBackend.delete {α : Type}
    (b : MemoryCacheBackend α) (key : String) : MemoryCacheBackend α :=
  { b with cache := eraseKey key b.cache }

/-- Embeds `MemoryCacheBackend.get` (lines 123-132): purge expired
entries, then return the entry's value if present and unexpired;
an expired survivor (impossible after the purge, kept for fidelity)
is deleted. Returns the value and the updated backend state. -/
def MemoryCacheBackend.get {α : Type}
    (b : MemoryCacheBackend α) (key : String) (now : Int) :
    Option α × MemoryCacheBackend α :=
  match lookupKey key (b.cleanup_expired now).cache with
  | none => (none, b.cleanup_expired now)
  | some entry =>
    if !entry.is_expired now then (some entry.value, b.cleanup_expired now)
    else (none, (b.cleanup_expired now).delete key)

/-- Embeds `MemoryCacheBackend.set` (lines 134-142): purge expired
entries, run the eviction check, then store the new entry with
`created_at = now`. -/
def MemoryCacheBackend.set {α : Type}
    (b : MemoryCacheBackend α) (key : String) (value : α) (ttl : Option Int)
    (now : Int) : MemoryCacheBackend α :=
  { (b.cleanup_expired now).evict_lru with
    cache := setKey key { value := value, created_at := now, ttl := ttl }
      ((b.cleanup_expired now).evict_lru).cache }

/-- Embeds `MemoryCacheBackend.exists` (lines 148-151): purge expired
entries, then report whether the key is present with an unexpired
entry. Returns the answer and the updated backend state. -/
def MemoryCacheBackend.existsKey {α : Type}
    (b : MemoryCacheBackend α) (key : String) (now : Int) :
    Bool × MemoryCacheBackend α :=
  match lookupKey key (b.cleanup_expired now).cache with
  | none => (false, b.cleanup_expired now)
  | some entry => (!entry.is_expired now, b.cleanup_expired now)

/-! ## FileCacheBackend: `src/utils/cache/cache_manager.py` lines 48-100

The cache directory is modelled as an association list from key to file
content (the path `{key}.pkl` is in bijection with the key). A file holds
either a valid pickled `CacheEntry` or bytes on which `pickle.load`
raises (`corrupt`). -/

/-- Content of one persisted cache file: a pickled `CacheEntry`, or an
unreadable/corrupt record on which deserialisation raises. -/
inductive FileContent (α : Type) where
  | valid (e : CacheEntry α)
  | corrupt
  deriving Repr, DecidableEq

/-- Embeds `FileCacheBackend`: one file per key under the cache
directory. -/
structure FileCacheBackend (α : Type) where
  files : List (String × FileContent α)
  deriving Repr

/-- Embeds `FileCacheBackend.get` (lines 58-71): if the file exists, try
to unpickle it; an unexpired entry's value is returned, an expired
entry's file is deleted, and a deserialisation failure is caught,
logged, and answered with `None` — the corrupt file is left in place. -/
def FileCacheBackend.get {α : Type}
    (b : FileCacheBackend α) (key : String) (now : Int) :
    Option α × FileCacheBackend α :=
  match lookupKey key b.files with
  | none => (none, b)
  | some (.valid e) =>
    if !e.is_expired now then (some e.value, b)
    else (none, { b with files := eraseKey key b.files })
  | some .corrupt => (none, b)

/-- Embeds `FileCacheBackend.set` (lines 73-80): pickle a fresh entry
into the key's file (overwriting any previous content). -/
def FileCacheBackend.set {α : Type}
    (b : FileCacheBackend α) (key : String) (value : α) (ttl : Option Int)
    (now : Int) : FileCacheBackend α :=
  { b with files := setKey key (.valid { value := value, created_at := now, ttl := ttl }) b.files }

/-- Embeds `FileCacheBackend.delete` (lines 82-85). -/
def FileCacheBackend.delete {α : Type}
    (b : FileCacheBackend α) (key : String) : FileCacheBackend α :=
  { b with files := eraseKey key b.files }

/-- Embeds `FileCacheBackend.exists` (lines 87-100): missing file →
`False`; unpicklable file → warning logged, `False`, file left in place;
expired entry → file deleted, `False`; otherwise `True`. -/
def FileCacheBackend.existsKey {α : Type}
    (b : FileCacheBackend α) (key : String) (now : Int) :
    Bool × FileCacheBackend α :=
  match lookupKey key b.files with
  | none => (false, b)
  | some (.valid e) =>
    if !e.is_expired now then (true, b)
    else (false, { b with files := eraseKey key b.files })
  | some .corrupt => (false, b)

/-! ## Cache-key derivation: `src/utils/cache/cache_manager.py` lines 154-224

Python argument values are modelled by the inductive `PyVal`, covering
the JSON-serialisable primitives and containers the code distinguishes,
plus opaque class instances carrying their module, class name, and
object identity (the `id()`-derived address that `str(obj)` exposes for
a default `object.__repr__`). -/

/-- A Python value as seen by the cache-key code: primitives,
containers, or an opaque class instance (module, class name, identity). -/
inductive PyVal where
  | vNone
  | vBool (b : Bool)
  | vInt (n : Int)
  | vStr (s : String)
  | vList (xs : List PyVal)
  | vDict (xs : List (String × PyVal))
  | vInst (module cls : String) (oid : Nat)
  deriving Repr

/-- Embeds `_is_class_instance` (lines 154-167): `False` on the
primitive types (`str`, `int`, `float`, `bool`, `NoneType`) and the
container types (`list`, `dict`, `tuple`, `set`); `True` on everything
else (every object has `__class__.__name__`). -/
def _is_class_instance : PyVal → Bool
  | .vNone | .vBool _ | .vInt _ | .vStr _ => false
  | .vList _ | .vDict _ => false
  | .vInst _ _ _ => true

/-- The fully-qualified class name `f"{module_name}.{class_name}"`
(lines 178-184), falling back to the bare class name when the module
name is empty. -/
def fullClassName (module cls : String) : String :=
  if module = "" then cls else module ++ "." ++ cls

/-- Embeds `_process_args_for_cache_key` (lines 170-190): each
positional argument that is a class instance is replaced by the tag
`"<class_instance:{fully.qualified.Name}>"`; every other argument is
kept as is. -/
def _process_args_for_cache_key (args : List PyVal) : List PyVal :=
  args.map fun arg =>
    if _is_class_instance arg then
      match arg with
      | .vInst module cls _ => .vStr ("<class_instance:" ++ fullClassName module cls ++ ">")
      | v => v
    else arg

/-- `str(obj)` for a default-`__repr__` object:
`"<module.Class object at 0x...>"`, identity-dependent. This is what
`json.dumps(..., default=str)` falls back to on a non-serialisable
value (line 207). The address is rendered via the object identity. -/
def pyStrOfInst (module cls : String) (oid : Nat) : String :=
  "<" ++ fullClassName module cls ++ " object at 0x" ++ toString oid ++ ">"

/-- Escaping of one character inside a JSON string literal (the
fragment of `json.dumps` escaping needed here: backslash and double
quote). -/
def jsonEscapeChar (c : Char) : String :=
  if c = '\\' then "\\\\"
  else if c = '"' then "\\\"" else String.singleton c

/-- JSON string literal encoding of `s`. -/
def jsonQuote (s : String) : String :=
  "\"" ++ String.join (s.data.map jsonEscapeChar) ++ "\""

/-- Joins already-rendered items with `json.dumps`'s default item
separator `", "`. -/
def joinComma : List String → String
  | [] => ""
  | [x] => x
  | x :: rest => x ++ ", " ++ joinComma rest

/-- Insertion sort of (key, rendered value) pairs by key, modelling
`json.dumps(..., sort_keys=True)`'s lexicographic key ordering. Sorting
the pairs after rendering the values equals rendering after sorting,
since rendering is per-element and the sort looks only at the key. -/
def sortPairs (xs : List (String × String)) : List (String × String) :=
  xs.foldr insertSorted []
where
  insertSorted (p : String × String) : List (String × String) → List (String × String)
    | [] => [p]
    | q :: rest => if p.1 ≤ q.1 then p :: q :: rest else q :: insertSorted p rest

mutual
/-- Embeds `json.dumps(v, sort_keys=True, ensure_ascii=False, default=str)`
on one value: canonical textual encoding with sorted mapping keys,
default separators `", "` and `": "`, and `str(obj)` as the fallback
encoder for class instances. -/
def jsonDumps : PyVal → String
  | .vNone => "null"
  | .vBool b => if b then "true" else "false"
  | .vInt n => toString n
  | .vStr s => jsonQuote s
  | .vList xs => "[" ++ joinComma (jsonDumpsList xs) ++ "]"
  | .vDict xs =>
    "\x7b" ++ joinComma ((sortPairs (jsonDumpsPairs xs)).map
      (fun p => jsonQuote p.1 ++ ": " ++ p.2)) ++ "\x7d"
  | .vInst module cls oid => jsonQuote (pyStrOfInst module cls oid)

/-- Renders each element of a JSON array. -/
def jsonDumpsList : List PyVal → List String
  | [] => []
  | x :: rest => jsonDumps x :: jsonDumpsList rest

/-- Renders the value of each mapping item, keeping the key for
sorting. -/
def jsonDumpsPairs : List (String × PyVal) → List (String × String)
  | [] => []
  | (k, v) :: rest => (k, jsonDumps v) :: jsonDumpsPairs rest
end

/-- The source hashes the canonical encoding with `hashlib.md5` and
returns the hex digest (line 208). The digest is a fixed deterministic
function of the encoded string; it preserves string equality, and
preserves inequality up to astronomically unlikely collisions. It is
modelled by the identity on the canonical encoding, so that key
equality/inequality is settled at the pre-digest level the way the
specification's determinism claims are meant. -/
def md5hex (s : String) : String := s

/-- Embeds `get_cache_key(*args, **kwargs)` (lines 193-224): positional
arguments are passed through `_process_args_for_cache_key`; keyword
arguments are embedded RAW (the source never processes `kwargs`); the
structure `{"args": ..., "kwargs": ...}` is serialised with
`json.dumps(..., sort_keys=True, default=str)` and hashed. In the
modelled value universe `json.dumps` always succeeds (the `default=str`
hook handles instances), so the pickle and string-`hash` fallbacks are
dead paths. -/
def get_cache_key (args : List PyVal) (kwargs : List (String × PyVal)) : String :=
  let processed_args := _process_args_for_cache_key args
  let key_data : PyVal := .vDict [("args", .vList processed_args), ("kwargs", .vDict kwargs)]
  md5hex (jsonDumps key_data)

/-! ## `CacheManager.cached`: `src/utils/cache/cache_manager.py` lines 227-245 -/

/-- Embeds the wrapper produced by `CacheManager.cached(ttl)` around a
function `f`, for a `CacheManager` owning a `MemoryCacheBackend`, at one
call with the given arguments at time `now`: derive the key from the
arguments; if the backend reports it present, answer from the cache;
otherwise invoke `f`, store the result with the wrapper's `ttl`, and
return it. The hit path forwards `self.backend.get(cache_key)` as is,
hence the `Option α` result (Python's `Optional`); the miss path wraps
the computed result in `some`. The returned `Bool` records whether `f`
was invoked by this call. -/
def cachedCall {α : Type}
    (backend : MemoryCacheBackend α) (ttl : Option Int)
    (f : List PyVal → List (String × PyVal) → α)
    (args : List PyVal) (kwargs : List (String × PyVal)) (now : Int) :
    Option α × MemoryCacheBackend α × Bool :=
  let cache_key := get_cache_key args kwargs
  let ex := backend.existsKey cache_key now
  if ex.1 then
    let g := ex.2.get cache_key now
    (g.1, g.2, false)
  else
    let result := f args kwargs
    (some result, ex.2.set cache_key result ttl now, true)

/-! ## Semantic chunker: `src/core/text/chunking.py`

External collaborators become parameters: `count` is
`llm_client.count_tokens`, `reSearch pattern text` is
`re.search(pattern, text)`'s truthiness, and `arbiter` is
`_refine_chunks_with_llm`'s effectful core (the chat completion plus
`json.loads(response['content'])['chunk_content']` — the source
forwards the parsed list with no further validation, lines 238-242). -/

/-- Embeds Python `str.strip()`: removes leading and trailing
whitespace characters. -/
def pyStrip (s : String) : String :=
  ⟨((s.data.dropWhile Char.isWhitespace).reverse.dropWhile Char.isWhitespace).reverse⟩

/-- Character-level splitter: scans left to right, cutting at each
(non-overlapping, leftmost) occurrence of the non-empty separator. The
fuel argument (instantiated with the text length) only makes the
recursion structural; one character or more is consumed per step, so
the fuel is never exhausted first. -/
def pySplitAux (sep : List Char) : Nat → List Char → List Char → List (List Char)
  | 0, _, acc => [acc.reverse]
  | fuel + 1, l, acc =>
    match l with
    | [] => [acc.reverse]
    | c :: rest =>
      if sep.isPrefixOf (c :: rest) then
        acc.reverse :: pySplitAux sep fuel (List.drop sep.length (c :: rest)) []
      else
        pySplitAux sep fuel rest (c :: acc)

/-- Embeds Python `str.split(sep)` for a non-empty separator: the list
of (possibly empty) pieces between non-overlapping occurrences of
`sep`, leftmost first. (Python raises on an empty separator; that case
is mapped to the whole string.) -/
def pySplit (s : String) (sep : String) : List String :=
  if sep.data.isEmpty then [s]
  else (pySplitAux sep.data s.data.length s.data []).map (fun cs => ⟨cs⟩)

/-- Embeds `ChunkConfig` (chunking.py lines 12-18): the validated
configuration record. -/
structure ChunkConfig where
  max_tokens_per_chunk : Int
  min_tokens_per_chunk : Int
  paragraph_separator : String
  safe_break_keywords : List String
  use_llm_for_refinement : Bool := false
  deriving Repr, DecidableEq

/-- The raw `chunking` mapping as loaded from YAML by `get_settings`:
each field either absent or present with a value of the declared type
(a present field of the wrong type is modelled as absent, both being
pydantic validation errors). -/
structure RawChunkingSection where
  max_tokens_per_chunk : Option Int := none
  min_tokens_per_chunk : Option Int := none
  paragraph_separator : Option String := none
  safe_break_keywords : Option (List String) := none
  use_llm_for_refinement : Option Bool := none
  deriving Repr

/-- Embeds the pydantic validation performed by `ChunkConfig(**raw)`
(chunking.py lines 12-18, invoked at line 79): each `Field(...)` field
is required — absence (or a type mismatch) raises a `ValidationError` —
and `use_llm_for_refinement` defaults to `False`. Pydantic declares NO
cross-field constraint between the token thresholds: any integers that
parse are accepted. -/
def ChunkConfig.load (raw : RawChunkingSection) : Except String ChunkConfig :=
  match raw.max_tokens_per_chunk, raw.min_tokens_per_chunk,
        raw.paragraph_separator, raw.safe_break_keywords with
  | some maxT, some minT, some sep, some kws =>
    .ok { max_tokens_per_chunk := maxT, min_tokens_per_chunk := minT,
          paragraph_separator := sep, safe_break_keywords := kws,
          use_llm_for_refinement := raw.use_llm_for_refinement.getD false }
  | _, _, _, _ => .error "ValidationError: field required"

/-- Embeds `TextChunk` (chunking.py lines 21-28). -/
structure TextChunk where
  start_chapter_idx : Nat
  end_chapter_idx : Nat
  text : String
  estimated_tokens : Int
  is_natural_break : Bool
  break_reason : String
  deriving Repr, DecidableEq

/-- Embeds `is_safe_break_point` (chunking.py lines 31-45): the
paragraph is a safe break iff some configured pattern matches it
under `re.search`. -/
def is_safe_break_point (reSearch : String → String → Bool)
    (paragraph : String) (config : ChunkConfig) : Bool :=
  config.safe_break_keywords.any fun pattern => reSearch pattern paragraph

/-- Embeds `split_into_paragraphs` (chunking.py lines 48-65): split on
the separator, strip each piece, drop the empty ones. -/
def split_into_paragraphs (text : String) (sep : String := "\n\n") : List String :=
  if text = "" then []
  else ((pySplit text sep).map pyStrip).filter (fun p => p ≠ "")

/-- Embeds `_create_chunk` (chunking.py lines 165-181) in the
`llm_client`-present form used throughout `chunk_novel_text`: the
chunk's `text` is stripped, while `estimated_tokens` is computed on the
UNstripped `text` argument (the source strips only inside the
constructor call). -/
def _create_chunk (count : String → Int) (text : String)
    (start_chapter end_chapter : Nat) (is_natural_break : Bool)
    (break_reason : String) : TextChunk :=
  { start_chapter_idx := start_chapter,
    end_chapter_idx := end_chapter,
    text := pyStrip text,
    estimated_tokens := count text,
    is_natural_break := is_natural_break,
    break_reason := break_reason }

/-- The chunker's loop state: the chunks emitted so far, the
in-progress buffer `current_chunk_text`, and its 1-based start
chapter. -/
structure ChunkState where
  chunks : List TextChunk
  current_chunk_text : String
  current_start_chapter : Nat
  deriving Repr, DecidableEq

/-- Embeds the paragraph loop of `chunk_novel_text` (chunking.py lines
95-146) for one chapter. Per paragraph: tentatively append it (the
source joins with a hardcoded `"\n\n"`, line 97) and count tokens;
within budget → commit; else, if the buffer reached the minimum and the
paragraph is a safe break → emit the buffer and `break` out of the
paragraph loop (the source then advances to the next chapter, line 149,
so the chapter's remaining paragraphs are skipped); else, if the buffer
reached the minimum and refinement is on → emit the arbiter's parts (or
one forced chunk when it returns none) and continue; otherwise NO
branch applies and the loop moves on — the paragraph is silently
discarded (the source never writes it anywhere). -/
def processParas (config : ChunkConfig) (count : String → Int)
    (reSearch : String → String → Bool) (arbiter : String → List String)
    (chapter_num : Nat) : List String → ChunkState → ChunkState
  | [], st => st
  | para :: rest, st =>
    let temp_text := pyStrip (st.current_chunk_text ++ "\n\n" ++ para)
    let temp_tokens := count temp_text
    if temp_tokens ≤ config.max_tokens_per_chunk then
      processParas config count reSearch arbiter chapter_num rest
        { st with current_chunk_text := temp_text }
    else if decide (count st.current_chunk_text ≥ config.min_tokens_per_chunk)
            && is_safe_break_point reSearch para config then
      { chunks := st.chunks ++
          [_create_chunk count st.current_chunk_text st.current_start_chapter
            chapter_num true "安全关键词或段落结尾"],
        current_chunk_text := para,
        current_start_chapter := chapter_num }
    else if decide (count st.current_chunk_text ≥ config.min_tokens_per_chunk)
            && config.use_llm_for_refinement then
      let chunks_text := arbiter st.current_chunk_text
      let new_chunks :=
        if chunks_text.isEmpty then
          [_create_chunk count st.current_chunk_text st.current_start_chapter
            chapter_num false "达到最大 token 限制，强制切分"]
        else
          chunks_text.map fun chunk_text =>
            _create_chunk count chunk_text st.current_start_chapter
              chapter_num true "大模型判断结果是剧情分段"
      processParas config count reSearch arbiter chapter_num rest
        { chunks := st.chunks ++ new_chunks,
          current_chunk_text := para,
          current_start_chapter := chapter_num }
    else
      processParas config count reSearch arbiter chapter_num rest st

/-- Embeds `chunk_novel_text` (chunking.py lines 68-162), parameterised
by the configuration (the source loads it from a fixed YAML path at
line 79) and the collaborators. Chapters are processed in order — the
source's `while` advances `current_chapter_index` by one whether or not
the paragraph loop broke (lines 143-149) — and a non-blank final buffer
is emitted as a last chunk with reason `"文本结束"`. -/
def chunk_novel_text (config : ChunkConfig) (count : String → Int)
    (reSearch : String → String → Bool) (arbiter : String → List String)
    (chapters : List String) : List TextChunk :=
  let final := chapters.enum.foldl
    (fun st p =>
      processParas config count reSearch arbiter (p.1 + 1)
        (split_into_paragraphs p.2 config.paragraph_separator) st)
    { chunks := [], current_chunk_text := "", current_start_chapter := 1 }
  if pyStrip final.current_chunk_text ≠ "" then
    final.chunks ++
      [_create_chunk count final.current_chunk_text final.current_start_chapter
        chapters.length true "文本结束"]
  else
    final.chunks

/-! ## Operation sequences over `MemoryCacheBackend` (for invariants) -/

/-- One call of the `CacheBackend` interface (`get`/`set`/`delete`/
`exists`, cache_manager.py lines 28-45). -/
inductive CacheOp (α : Type) where
  | get (key : String)
  | set (key : String) (value : α) (ttl : Option Int)
  | delete (key : String)
  | existsKey (key : String)
  deriving Repr

/-- Applies one interface call, at clock reading `now`, to the memory
backend, keeping only the resulting state. -/
def applyOp {α : Type} (b : MemoryCacheBackend α) : CacheOp α × Int → MemoryCacheBackend α
  | (.get key, now) => (b.get key now).2
  | (.set key value ttl, now) => b.set key value ttl now
  | (.delete key, _) => b.delete key
  | (.existsKey key, now) => (b.existsKey key now).2

/-- Runs a sequence of timestamped interface calls. -/
def runOps {α : Type} (b : MemoryCacheBackend α) (ops : List (CacheOp α × Int)) :
    MemoryCacheBackend α :=
  ops.foldl applyOp b

/-! ## Relations and concrete fixtures used by the claim theorems -/

/-- Two argument values that are equal, or are class instances of the
same fully-qualified type differing only in object identity. -/
def instEquiv (a b : PyVal) : Prop :=
  a = b ∨ ∃ module cls i j, a = .vInst module cls i ∧ b = .vInst module cls j

/-- The primitive argument values in the source's sense
(`_is_class_instance`'s first filter, cache_manager.py line 159:
`str`, `int`, `bool`, `NoneType`). -/
def isPrimitivePy : PyVal → Bool
  | .vNone | .vBool _ | .vInt _ | .vStr _ => true
  | _ => false

/-- Fixture: token estimator counting one token per character
(a deterministic, monotonic estimate, as the contract requires). -/
def charCount : String → Int := fun s => (s.length : Int)

/-- Fixture: a regex engine under which no pattern matches. -/
def noMatch : String → String → Bool := fun _ _ => false

/-- Fixture: a regex engine matching a pattern iff it occurs as a
literal substring (the behaviour of `re.search` on the literal keyword
patterns the configuration uses). -/
def substrMatch : String → String → Bool := fun pattern s =>
  (pySplit s pattern).length > 1

/-- Fixture: an arbiter that never proposes a split. -/
def noSplit : String → List String := fun _ => []

/-- Fixture: a malformed arbiter answer — three parts that do not
concatenate back to the input. -/
def badArbiter : String → List String := fun _ => ["X", "Y", "Z"]

/-- Fixture: a memory backend with `max_size = 1` already holding two
never-expiring entries (the over-full state reachable per C2). -/
def twoEntryBackend : MemoryCacheBackend Int :=
  { cache := [("a", { value := 10, created_at := 0, ttl := none }),
              ("b", { value := 20, created_at := 1, ttl := none })],
    max_size := 1 }

/-- Fixture: a configuration with budget 3 and minimum 2, no safe-break
patterns, refinement off. -/
def cfgSmall : ChunkConfig :=
  { max_tokens_per_chunk := 3, min_tokens_per_chunk := 2,
    paragraph_separator := "\n\n", safe_break_keywords := [],
    use_llm_for_refinement := false }

/-- Fixture: as `cfgSmall` but with minimum 3, so a 2-token buffer is
below the minimum when the budget overflows. -/
def cfgSmallMin3 : ChunkConfig := { cfgSmall with min_tokens_per_chunk := 3 }

/-- Fixture: as `cfgSmall` but with refinement enabled. -/
def cfgSmallLLM : ChunkConfig := { cfgSmall with use_llm_for_refinement := true }

/-! ## Helper lemmas on the association-list dictionary model -/

theorem lookupKey_filter_none {β : Type} {k : String} {l : List (String × β)}
    (p : String × β → Bool) (h : lookupKey k l = none) :
    lookupKey k (l.filter p) = none := by
  induction l with
  | nil => simp [lookupKey]
  | cons hd tl ih =>
    rw [lookupKey] at h
    by_cases hk : hd.1 = k
    · simp [hk] at h
    · rw [List.filter]
      cases hp : p hd with
      | true =>
        rw [lookupKey]
        simp only [hk, if_false]
        exact ih (by simpa [hk] using h)
      | false => exact ih (by simpa [hk] using h)

theorem lookupKey_filter_some {β : Type} {k : String} {v : β} {l : List (String × β)}
    {p : String × β → Bool} (h : lookupKey k l = some v) (hp : p (k, v) = true) :
    lookupKey k (l.filter p) = some v := by
  induction l with
  | nil => simp [lookupKey] at h
  | cons hd tl ih =>
    obtain ⟨k₁, v₁⟩ := hd
    rw [lookupKey] at h
    by_cases hk : k₁ = k
    · subst hk
      rw [if_pos rfl] at h
      injection h with hv
      subst hv
      rw [List.filter_cons, if_pos hp, lookupKey, if_pos rfl]
    · rw [if_neg hk] at h
      rw [List.filter_cons]
      by_cases hq : p (k₁, v₁) = true
      · rw [if_pos hq, lookupKey, if_neg hk]
        exact ih h
      · rw [if_neg hq]
        exact ih h

theorem lookupKey_setKey_self {β : Type} (k : String) (v : β) (l : List (String × β)) :
    lookupKey k (setKey k v l) = some v := by
  induction l with
  | nil => simp [setKey, lookupKey]
  | cons hd tl ih =>
    rw [setKey]
    by_cases hk : hd.1 = k
    · simp [hk, lookupKey]
    · rw [if_neg hk, lookupKey, if_neg hk]
      exact ih

theorem setKey_of_not_mem {β : Type} {k : String} {l : List (String × β)}
    (v : β) (h : lookupKey k l = none) : setKey k v l = l ++ [(k, v)] := by
  induction l with
  | nil => simp [setKey]
  | cons hd tl ih =>
    rw [lookupKey] at h
    by_cases hk : hd.1 = k
    · simp [hk] at h
    · rw [setKey, if_neg hk, List.cons_append]
      exact congrArg _ (ih (by simpa [hk] using h))

theorem lookupKey_eraseKey_none {β : Type} {k : String} {l : List (String × β)}
    (k' : String) (h : lookupKey k l = none) :
    lookupKey k (eraseKey k' l) = none := by
  induction l with
  | nil => simp [eraseKey, lookupKey]
  | cons hd tl ih =>
    rw [lookupKey] at h
    by_cases hk : hd.1 = k
    · simp [hk] at h
    · have htl : lookupKey k tl = none := by simpa [hk] using h
      rw [eraseKey]
      by_cases hk' : hd.1 = k'
      · rw [if_pos hk']; exact htl
      · rw [if_neg hk', lookupKey, if_neg hk]
        exact ih htl

theorem eraseKey_length_of_mem {β : Type} {k : String} {l : List (String × β)}
    {v : β} (h : lookupKey k l = some v) :
    (eraseKey k l).length + 1 = l.length := by
  induction l with
  | nil => simp [lookupKey] at h
  | cons hd tl ih =>
    rw [lookupKey] at h
    by_cases hk : hd.1 = k
    · rw [eraseKey, if_pos hk]
      simp
    · rw [eraseKey, if_neg hk]
      simp only [List.length_cons]
      rw [← ih (by simpa [hk] using h)]

theorem eraseKey_length_le {β : Type} (k : String) (l : List (String × β)) :
    (eraseKey k l).length ≤ l.length := by
  induction l with
  | nil => simp [eraseKey]
  | cons hd tl ih =>
    rw [eraseKey]
    by_cases hk : hd.1 = k
    · rw [if_pos hk]; simp
    · rw [if_neg hk]
      simpa using Nat.succ_le_succ ih

theorem setKey_length_le {β : Type} (k : String) (v : β) (l : List (String × β)) :
    (setKey k v l).length ≤ l.length + 1 := by
  induction l with
  | nil => simp [setKey]
  | cons hd tl ih =>
    rw [setKey]
    by_cases hk : hd.1 = k
    · rw [if_pos hk]; simp
    · rw [if_neg hk]
      simpa using Nat.succ_le_succ ih

theorem setKey_length_ge {β : Type} (k : String) (v : β) (l : List (String × β)) :
    l.length ≤ (setKey k v l).length := by
  induction l with
  | nil => simp [setKey]
  | cons hd tl ih =>
    rw [setKey]
    by_cases hk : hd.1 = k
    · rw [if_pos hk]; simp
    · rw [if_neg hk]
      simpa using Nat.succ_le_succ ih

theorem eraseKey_length_ge {β : Type} (k : String) (l : List (String × β)) :
    l.length ≤ (eraseKey k l).length + 1 := by
  induction l with
  | nil => simp [eraseKey]
  | cons hd tl ih =>
    rw [eraseKey]
    by_cases hk : hd.1 = k
    · rw [if_pos hk]; simp
    · rw [if_neg hk]
      simpa using Nat.succ_le_succ ih

theorem oldestKey_eq_none_iff {α : Type} (l : List (String × CacheEntry α)) :
    oldestKey l = none ↔ l = [] := by
  cases l with
  | nil => simp [oldestKey]
  | cons hd tl =>
    obtain ⟨k₀, e₀⟩ := hd
    cases hrec : oldestKey tl with
    | none => simp [oldestKey, hrec]
    | some k' =>
      cases hl : lookupKey k' tl with
      | none => simp [oldestKey, hrec, hl]
      | some e' =>
        by_cases hc : e'.created_at < e₀.created_at <;>
          simp [oldestKey, hrec, hl, hc]

theorem oldestKey_lookup {α : Type} {l : List (String × CacheEntry α)} {k : String}
    (h : oldestKey l = some k) : ∃ e, lookupKey k l = some e := by
  induction l with
  | nil => simp [oldestKey] at h
  | cons hd tl ih =>
    obtain ⟨k₀, e₀⟩ := hd
    cases hrec : oldestKey tl with
    | none =>
      rw [oldestKey, hrec] at h
      injection h with hk
      subst hk
      exact ⟨e₀, by rw [lookupKey, if_pos rfl]⟩
    | some k' =>
      cases hl : lookupKey k' tl with
      | none =>
        rw [oldestKey, hrec] at h
        dsimp only at h
        rw [hl] at h
        injection h with hk
        subst hk
        exact ⟨e₀, by rw [lookupKey, if_pos rfl]⟩
      | some e' =>
        rw [oldestKey, hrec] at h
        dsimp only at h
        rw [hl] at h
        dsimp only at h
        by_cases hc : e'.created_at < e₀.created_at
        · rw [if_pos hc] at h
          injection h with hk
          subst hk
          by_cases hk₀ : k₀ = k'
          · exact ⟨e₀, by rw [lookupKey, if_pos hk₀]⟩
          · rcases ih hrec with ⟨e, he⟩
            exact ⟨e, by rw [lookupKey, if_neg hk₀]; exact he⟩
        · rw [if_neg hc] at h
          injection h with hk
          subst hk
          exact ⟨e₀, by rw [lookupKey, if_pos rfl]⟩

theorem lookupKey_mem_keys {β : Type} {k : String} {v : β} {l : List (String × β)}
    (h : lookupKey k l = some v) : k ∈ l.map Prod.fst := by
  induction l with
  | nil => simp [lookupKey] at h
  | cons hd tl ih =>
    rw [lookupKey] at h
    by_cases hk : hd.1 = k
    · simp [hk]
    · rw [if_neg hk] at h
      simp only [List.map_cons, List.mem_cons]
      exact Or.inr (ih h)

theorem oldestKey_minimal {α : Type} {l : List (String × CacheEntry α)} {k : String}
    (hnd : (l.map Prod.fst).Nodup) (h : oldestKey l = some k) :
    ∃ e, lookupKey k l = some e ∧ ∀ p ∈ l, e.created_at ≤ p.2.created_at := by
  induction l generalizing k with
  | nil => simp [oldestKey] at h
  | cons hd tl ih =>
    obtain ⟨k₀, e₀⟩ := hd
    rw [List.map_cons, List.nodup_cons] at hnd
    obtain ⟨hk₀tl, hnd'⟩ := hnd
    cases hrec : oldestKey tl with
    | none =>
      have htl : tl = [] := (oldestKey_eq_none_iff tl).mp hrec
      subst htl
      simp only [oldestKey] at h
      injection h with hk
      subst hk
      refine ⟨e₀, by rw [lookupKey, if_pos rfl], ?_⟩
      intro p hp
      rcases List.mem_singleton.mp hp with rfl
      exact le_refl _
    | some k' =>
      cases hl : lookupKey k' tl with
      | none =>
        rcases ih hnd' hrec with ⟨e, he, _⟩
        rw [hl] at he
        exact Option.noConfusion he
      | some e' =>
        rw [oldestKey, hrec] at h
        dsimp only at h
        rw [hl] at h
        dsimp only at h
        rcases ih hnd' hrec with ⟨e'', he'', hmin⟩
        rw [hl] at he''
        injection he'' with hee
        subst hee
        by_cases hc : e'.created_at < e₀.created_at
        · rw [if_pos hc] at h
          injection h with hk
          subst hk
          have hk'mem : k' ∈ tl.map Prod.fst := lookupKey_mem_keys hl
          have hne : k₀ ≠ k' := fun hEq => hk₀tl (hEq ▸ hk'mem)
          refine ⟨e', by rw [lookupKey, if_neg hne]; exact hl, ?_⟩
          intro p hp
          rcases List.mem_cons.mp hp with rfl | hp
          · exact le_of_lt hc
          · exact hmin p hp
        · rw [if_neg hc] at h
          injection h with hk
          subst hk
          refine ⟨e₀, by rw [lookupKey, if_pos rfl], ?_⟩
          intro p hp
          rcases List.mem_cons.mp hp with rfl | hp
          · exact le_refl _
          · exact le_trans (not_lt.mp hc) (hmin p hp)

/-! ## Behaviour lemmas on the memory backend -/

theorem existsKey_of_fresh {α : Type} {b : MemoryCacheBackend α} {k : String} (now : Int)
    (h : lookupKey k b.cache = none) :
    b.existsKey k now = (false, b.cleanup_expired now) := by
  have hl : lookupKey k (b.cleanup_expired now).cache = none :=
    lookupKey_filter_none _ h
  unfold MemoryCacheBackend.existsKey
  simp only [hl]

theorem existsKey_of_live {α : Type} {b : MemoryCacheBackend α} {k : String}
    {e : CacheEntry α} (now : Int) (h : lookupKey k b.cache = some e)
    (hlive : e.is_expired now = false) :
    b.existsKey k now = (true, b.cleanup_expired now) := by
  have hl : lookupKey k (b.cleanup_expired now).cache = some e :=
    lookupKey_filter_some h (by simp [hlive])
  unfold MemoryCacheBackend.existsKey
  simp [hl, hlive]

theorem get_of_live {α : Type} {b : MemoryCacheBackend α} {k : String}
    {e : CacheEntry α} (now : Int) (h : lookupKey k b.cache = some e)
    (hlive : e.is_expired now = false) :
    b.get k now = (some e.value, b.cleanup_expired now) := by
  have hl : lookupKey k (b.cleanup_expired now).cache = some e :=
    lookupKey_filter_some h (by simp [hlive])
  unfold MemoryCacheBackend.get
  simp only [hl, hlive]
  simp

theorem set_cache_eq {α : Type} (b : MemoryCacheBackend α) (k : String) (v : α)
    (ttl : Option Int) (now : Int) :
    (b.set k v ttl now).cache =
      setKey k { value := v, created_at := now, ttl := ttl }
        ((b.cleanup_expired now).evict_lru).cache := rfl

theorem evict_lru_length_le {α : Type} (b : MemoryCacheBackend α)
    (h : b.cache.length ≤ b.max_size + 1) :
    (b.evict_lru).cache.length ≤ b.max_size := by
  unfold MemoryCacheBackend.evict_lru
  by_cases hgt : b.cache.length > b.max_size
  · rw [if_pos hgt]
    cases ho : oldestKey b.cache with
    | none =>
      have hnil : b.cache = [] := (oldestKey_eq_none_iff _).mp ho
      rw [hnil] at hgt
      exact absurd hgt (by simp)
    | some k =>
      rcases oldestKey_lookup ho with ⟨e, he⟩
      have hlen := eraseKey_length_of_mem he
      show (eraseKey k b.cache).length ≤ b.max_size
      omega
  · rw [if_neg hgt]
    omega

theorem evict_lru_length_ge {α : Type} (b : MemoryCacheBackend α) :
    b.cache.length ≤ (b.evict_lru).cache.length + 1 := by
  unfold MemoryCacheBackend.evict_lru
  by_cases hgt : b.cache.length > b.max_size
  · rw [if_pos hgt]
    cases ho : oldestKey b.cache with
    | none => simp
    | some k =>
      have := eraseKey_length_ge k b.cache
      simpa using this
  · rw [if_neg hgt]
    simp

theorem evict_lru_max_size {α : Type} (b : MemoryCacheBackend α) :
    (b.evict_lru).max_size = b.max_size := by
  unfold MemoryCacheBackend.evict_lru
  by_cases hgt : b.cache.length > b.max_size
  · rw [if_pos hgt]
    cases ho : oldestKey b.cache with
    | none => rfl
    | some k => rfl
  · rw [if_neg hgt]

theorem set_length_invariant {α : Type} (b : MemoryCacheBackend α) (k : String)
    (v : α) (ttl : Option Int) (now : Int)
    (h : b.cache.length ≤ b.max_size + 1) :
    (b.set k v ttl now).cache.length ≤ b.max_size + 1 := by
  rw [set_cache_eq]
  have h₁ : (b.cleanup_expired now).cache.length ≤ b.max_size + 1 :=
    le_trans (List.length_filter_le _ _) h
  have h₂ : ((b.cleanup_expired now).evict_lru).cache.length ≤ b.max_size :=
    evict_lru_length_le _ h₁
  calc (setKey k { value := v, created_at := now, ttl := ttl }
          ((b.cleanup_expired now).evict_lru).cache).length
      ≤ ((b.cleanup_expired now).evict_lru).cache.length + 1 := setKey_length_le _ _ _
    _ ≤ b.max_size + 1 := by omega

theorem set_max_size {α : Type} (b : MemoryCacheBackend α) (k : String)
    (v : α) (ttl : Option Int) (now : Int) :
    (b.set k v ttl now).max_size = b.max_size := by
  show ((b.cleanup_expired now).evict_lru).max_size = b.max_size
  rw [evict_lru_max_size]
  rfl

theorem set_evicts_at_most_one {α : Type} (b : MemoryCacheBackend α) (k : String)
    (v : α) (ttl : Option Int) (now : Int) :
    (b.cleanup_expired now).cache.length ≤ (b.set k v ttl now).cache.length + 1 := by
  rw [set_cache_eq]
  have h₁ := evict_lru_length_ge (b.cleanup_expired now)
  have h₂ := setKey_length_ge k
    ({ value := v, created_at := now, ttl := ttl } : CacheEntry α)
    ((b.cleanup_expired now).evict_lru).cache
  omega

theorem applyOp_max_size {α : Type} (b : MemoryCacheBackend α) (op : CacheOp α × Int) :
    (applyOp b op).max_size = b.max_size := by
  obtain ⟨op, now⟩ := op
  cases op with
  | get key =>
    show ((b.get key now).2).max_size = _
    unfold MemoryCacheBackend.get
    cases hl : lookupKey key (b.cleanup_expired now).cache with
    | none => rfl
    | some entry =>
      dsimp only
      by_cases he : (!entry.is_expired now) = true
      · rw [if_pos he]
        rfl
      · rw [if_neg he]
        rfl
  | set key v ttl => exact set_max_size b key v ttl now
  | delete key => rfl
  | existsKey key =>
    show ((b.existsKey key now).2).max_size = _
    unfold MemoryCacheBackend.existsKey
    cases hl : lookupKey key (b.cleanup_expired now).cache with
    | none => rfl
    | some entry => rfl

theorem applyOp_invariant {α : Type} (b : MemoryCacheBackend α) (op : CacheOp α × Int)
    (h : b.cache.length ≤ b.max_size + 1) :
    (applyOp b op).cache.length ≤ (applyOp b op).max_size + 1 := by
  rw [applyOp_max_size]
  obtain ⟨op, now⟩ := op
  cases op with
  | get key =>
    show ((b.get key now).2).cache.length ≤ _
    unfold MemoryCacheBackend.get
    have h₁ : (b.cleanup_expired now).cache.length ≤ b.max_size + 1 :=
      le_trans (List.length_filter_le _ _) h
    cases hl : lookupKey key (b.cleanup_expired now).cache with
    | none => exact h₁
    | some entry =>
      dsimp only
      by_cases he : (!entry.is_expired now) = true
      · rw [if_pos he]
        exact h₁
      · rw [if_neg he]
        show (eraseKey key (b.cleanup_expired now).cache).length ≤ b.max_size + 1
        exact le_trans (eraseKey_length_le _ _) h₁
  | set key v ttl =>
    exact set_length_invariant b key v ttl now h
  | delete key =>
    show (eraseKey key b.cache).length ≤ b.max_size + 1
    exact le_trans (eraseKey_length_le _ _) h
  | existsKey key =>
    show ((b.existsKey key now).2).cache.length ≤ _
    unfold MemoryCacheBackend.existsKey
    have h₁ : (b.cleanup_expired now).cache.length ≤ b.max_size + 1 :=
      le_trans (List.length_filter_le _ _) h
    cases hl : lookupKey key (b.cleanup_expired now).cache with
    | none => exact h₁
    | some entry => exact h₁

theorem runOps_invariant {α : Type} (ops : List (CacheOp α × Int))
    (b : MemoryCacheBackend α) (h : b.cache.length ≤ b.max_size + 1) :
    (runOps b ops).cache.length ≤ (runOps b ops).max_size + 1 := by
  induction ops generalizing b with
  | nil => exact h
  | cons op rest ih =>
    show (runOps (applyOp b op) rest).cache.length ≤ _
    exact ih (applyOp b op) (applyOp_invariant b op h)

theorem runOps_max_size {α : Type} (ops : List (CacheOp α × Int))
    (b : MemoryCacheBackend α) : (runOps b ops).max_size = b.max_size := by
  induction ops generalizing b with
  | nil => rfl
  | cons op rest ih =>
    show (runOps (applyOp b op) rest).max_size = _
    rw [ih (applyOp b op), applyOp_max_size]

/-! ## String and JSON-encoding lemmas (for the cache-key contract) -/

theorem string_data_inj {a b : String} (h : a.data = b.data) : a = b := by
  cases a
  cases b
  exact congrArg String.mk h

theorem string_middle_cancel {p s x y : String}
    (h : p ++ x ++ s = p ++ y ++ s) : x = y := by
  have hd : p.data ++ (x.data ++ s.data) = p.data ++ (y.data ++ s.data) := by
    have h2 := congrArg String.data h
    simp only [String.data_append, List.append_assoc] at h2
    exact h2
  exact string_data_inj (List.append_cancel_right (List.append_cancel_left hd))

theorem joinComma_cons_cons (x y : String) (l : List String) :
    joinComma (x :: y :: l) = x ++ ", " ++ joinComma (y :: l) := rfl

theorem joinComma_middle_inj : ∀ (A : List String) (B : List String) (m₁ m₂ : String),
    joinComma (A ++ m₁ :: B) = joinComma (A ++ m₂ :: B) → m₁ = m₂ := by
  intro A
  induction A with
  | nil =>
    intro B m₁ m₂ h
    cases B with
    | nil => simpa [joinComma] using h
    | cons b bs =>
      rw [List.nil_append, List.nil_append, joinComma_cons_cons, joinComma_cons_cons] at h
      have hd := congrArg String.data h
      simp only [String.data_append, List.append_assoc] at hd
      exact string_data_inj (List.append_cancel_right hd)
  | cons a A' ih =>
    intro B m₁ m₂ h
    rcases List.exists_cons_of_ne_nil (show A' ++ m₁ :: B ≠ [] by simp) with ⟨x, xs, hx⟩
    rcases List.exists_cons_of_ne_nil (show A' ++ m₂ :: B ≠ [] by simp) with ⟨y, ys, hy⟩
    rw [List.cons_append, hx, joinComma_cons_cons, ← hx] at h
    rw [List.cons_append, hy, joinComma_cons_cons, ← hy] at h
    have hd := congrArg String.data h
    simp only [String.data_append, List.append_assoc] at hd
    exact ih B m₁ m₂ (string_data_inj
      (List.append_cancel_left (List.append_cancel_left hd)))

theorem jsonDumpsList_eq_map : ∀ l : List PyVal, jsonDumpsList l = l.map jsonDumps := by
  intro l
  induction l with
  | nil => rfl
  | cons x xs ih => rw [jsonDumpsList, ih, List.map_cons]

theorem toDigitsCore_acc_eq (fuel : Nat) : ∀ (n : Nat) (acc : List Char),
    Nat.toDigitsCore 10 fuel n acc = Nat.toDigitsCore 10 fuel n [] ++ acc := by
  induction fuel with
  | zero => intro n acc; simp [Nat.toDigitsCore]
  | succ f ih =>
    intro n acc
    simp only [Nat.toDigitsCore]
    by_cases h : n / 10 = 0
    · simp [h]
    · rw [if_neg h, if_neg h, ih (n / 10) (Nat.digitChar (n % 10) :: acc),
        ih (n / 10) [Nat.digitChar (n % 10)], List.append_assoc]
      rfl

theorem toDigitsCore_fuel_irrel : ∀ (n f₁ f₂ : Nat), n < f₁ → n < f₂ →
    Nat.toDigitsCore 10 f₁ n [] = Nat.toDigitsCore 10 f₂ n [] := by
  intro n
  induction n using Nat.strong_induction_on with
  | _ n ih =>
    intro f₁ f₂ h₁ h₂
    cases f₁ with
    | zero => omega
    | succ g₁ =>
      cases f₂ with
      | zero => omega
      | succ g₂ =>
        simp only [Nat.toDigitsCore]
        by_cases h : n / 10 = 0
        · simp [h]
        · rw [if_neg h, if_neg h, toDigitsCore_acc_eq g₁, toDigitsCore_acc_eq g₂]
          have hn : 0 < n := Nat.pos_of_ne_zero (fun hn0 => h (by simp [hn0]))
          have hlt : n / 10 < n := Nat.div_lt_self hn (by norm_num)
          rw [ih (n / 10) hlt g₁ g₂ (by omega) (by omega)]

theorem toDigits_of_lt (n : Nat) (h : n < 10) :
    Nat.toDigits 10 n = [Nat.digitChar n] := by
  unfold Nat.toDigits Nat.toDigitsCore
  simp [Nat.mod_eq_of_lt h, Nat.div_eq_of_lt h]

theorem toDigits_of_ge (n : Nat) (h : 10 ≤ n) :
    Nat.toDigits 10 n = Nat.toDigits 10 (n / 10) ++ [Nat.digitChar (n % 10)] := by
  have hdiv : ¬ n / 10 = 0 := by omega
  show Nat.toDigitsCore 10 (n + 1) n [] = _
  simp only [Nat.toDigitsCore]
  rw [if_neg hdiv, toDigitsCore_acc_eq]
  have hlt : n / 10 < n := Nat.div_lt_self (by omega) (by norm_num)
  rw [show Nat.toDigits 10 (n / 10) = Nat.toDigitsCore 10 (n / 10 + 1) (n / 10) [] from rfl,
    toDigitsCore_fuel_irrel (n / 10) n (n / 10 + 1) (by omega) (Nat.lt_succ_self _)]

theorem toDigits_ne_nil (n : Nat) : Nat.toDigits 10 n ≠ [] := by
  by_cases h : n < 10
  · rw [toDigits_of_lt n h]; simp
  · rw [toDigits_of_ge n (by omega)]; simp

theorem toDigits_head_digit : ∀ n : Nat, ∃ d, d < 10 ∧
    (Nat.toDigits 10 n).head? = some (Nat.digitChar d) := by
  intro n
  induction n using Nat.strong_induction_on with
  | _ n ih =>
    by_cases h : n < 10
    · exact ⟨n, h, by rw [toDigits_of_lt n h]; rfl⟩
    · rcases ih (n / 10) (Nat.div_lt_self (by omega) (by norm_num)) with ⟨d, hd, hh⟩
      refine ⟨d, hd, ?_⟩
      rw [toDigits_of_ge n (by omega)]
      rcases List.exists_cons_of_ne_nil (toDigits_ne_nil (n / 10)) with ⟨c, cs, hc⟩
      rw [hc] at hh ⊢
      simpa using hh

theorem digitChar_inj_lt : ∀ m < 10, ∀ n < 10,
    Nat.digitChar m = Nat.digitChar n → m = n := by decide

theorem digitChar_not_special : ∀ d < 10,
    Nat.digitChar d ≠ 'n' ∧ Nat.digitChar d ≠ 't' ∧ Nat.digitChar d ≠ 'f' ∧
    Nat.digitChar d ≠ '-' ∧ Nat.digitChar d ≠ '"' := by decide

theorem toDigits_injective : ∀ m n : Nat, Nat.toDigits 10 m = Nat.toDigits 10 n → m = n := by
  intro m
  induction m using Nat.strong_induction_on with
  | _ m ih =>
    intro n h
    by_cases hm : m < 10 <;> by_cases hn : n < 10
    · rw [toDigits_of_lt m hm, toDigits_of_lt n hn] at h
      injection h with h1 _
      exact digitChar_inj_lt m hm n hn h1
    · exfalso
      rw [toDigits_of_lt m hm, toDigits_of_ge n (by omega)] at h
      have hlen := congrArg List.length h
      simp only [List.length_cons, List.length_append, List.length_nil,
        List.length_singleton] at hlen
      exact toDigits_ne_nil (n / 10) (List.eq_nil_of_length_eq_zero (by omega))
    · exfalso
      rw [toDigits_of_ge m (by omega), toDigits_of_lt n hn] at h
      have hlen := congrArg List.length h
      simp only [List.length_cons, List.length_append, List.length_nil,
        List.length_singleton] at hlen
      exact toDigits_ne_nil (m / 10) (List.eq_nil_of_length_eq_zero (by omega))
    · rw [toDigits_of_ge m (by omega), toDigits_of_ge n (by omega)] at h
      rcases List.append_inj' h rfl with ⟨h1, h2⟩
      injection h2 with h2 _
      have hdiv := ih (m / 10) (Nat.div_lt_self (by omega) (by norm_num)) (n / 10) h1
      have hmod := digitChar_inj_lt (m % 10) (Nat.mod_lt m (by norm_num))
        (n % 10) (Nat.mod_lt n (by norm_num)) h2
      omega

theorem nat_repr_injective {m n : Nat} (h : Nat.repr m = Nat.repr n) : m = n := by
  apply toDigits_injective m n
  have hd := congrArg String.data h
  simpa [Nat.repr, List.asString] using hd

theorem nat_repr_head (n : Nat) : ∃ d, d < 10 ∧
    (Nat.repr n).data.head? = some (Nat.digitChar d) := by
  rcases toDigits_head_digit n with ⟨d, hd, hh⟩
  exact ⟨d, hd, by simpa [Nat.repr, List.asString] using hh⟩

theorem intToString_ofNat (m : Nat) : toString (Int.ofNat m) = Nat.repr m := rfl

theorem intToString_negSucc (m : Nat) :
    toString (Int.negSucc m) = "-" ++ Nat.repr (m + 1) := rfl

theorem intToString_head (i : Int) :
    (∃ d, d < 10 ∧ (toString i).data.head? = some (Nat.digitChar d)) ∨
    (toString i).data.head? = some '-' := by
  cases i with
  | ofNat m =>
    rcases nat_repr_head m with ⟨d, hd, hh⟩
    exact Or.inl ⟨d, hd, by rw [intToString_ofNat]; exact hh⟩
  | negSucc m => exact Or.inr (by rw [intToString_negSucc]; rfl)

theorem intToString_injective {i j : Int} (h : toString i = toString j) : i = j := by
  cases i with
  | ofNat m =>
    cases j with
    | ofNat n =>
      rw [intToString_ofNat, intToString_ofNat] at h
      exact congrArg Int.ofNat (nat_repr_injective h)
    | negSucc n =>
      exfalso
      rcases nat_repr_head m with ⟨d, hd, hh⟩
      have hheads := congrArg (fun s => s.data.head?) h
      rw [intToString_ofNat] at hheads
      have hneg : (toString (Int.negSucc n)).data.head? = some '-' := by
        rw [intToString_negSucc]; rfl
      simp only at hheads
      rw [hh, hneg] at hheads
      injection hheads with hx
      exact (digitChar_not_special d hd).2.2.2.1 hx
  | negSucc m =>
    cases j with
    | ofNat n =>
      exfalso
      rcases nat_repr_head n with ⟨d, hd, hh⟩
      have hheads := congrArg (fun s => s.data.head?) h
      rw [intToString_ofNat] at hheads
      have hneg : (toString (Int.negSucc m)).data.head? = some '-' := by
        rw [intToString_negSucc]; rfl
      simp only at hheads
      rw [hh, hneg] at hheads
      injection hheads with hx
      exact (digitChar_not_special d hd).2.2.2.1 hx.symm
    | negSucc n =>
      rw [intToString_negSucc, intToString_negSucc] at h
      have hd := congrArg String.data h
      simp only [String.data_append] at hd
      have hr : Nat.repr (m + 1) = Nat.repr (n + 1) :=
        string_data_inj (List.append_cancel_left hd)
      have hmn := nat_repr_injective hr
      exact congrArg Int.negSucc (by omega)

theorem escChar_backslash : (jsonEscapeChar '\\').data = ['\\', '\\'] := rfl

theorem escChar_quote : (jsonEscapeChar '"').data = ['\\', '"'] := rfl

theorem escChar_plain {c : Char} (h1 : c ≠ '\\') (h2 : c ≠ '"') :
    (jsonEscapeChar c).data = [c] := by
  unfold jsonEscapeChar
  rw [if_neg h1, if_neg h2]
  rfl

theorem escChar_data_ne_nil (c : Char) : (jsonEscapeChar c).data ≠ [] := by
  by_cases h1 : c = '\\'
  · subst h1; rw [escChar_backslash]; simp
  · by_cases h2 : c = '"'
    · subst h2; rw [escChar_quote]; simp
    · rw [escChar_plain h1 h2]; simp

theorem foldl_append_data : ∀ (l : List String) (acc : String),
    (l.foldl (· ++ ·) acc).data = acc.data ++ (l.map String.data).flatten := by
  intro l
  induction l with
  | nil => intro acc; simp
  | cons s rest ih =>
    intro acc
    simp only [List.foldl_cons, List.map_cons, List.flatten]
    rw [ih (acc ++ s)]
    simp [String.data_append, List.append_assoc]

theorem string_join_data (l : List String) :
    (String.join l).data = (l.map String.data).flatten := by
  show (l.foldl (· ++ ·) "").data = _
  rw [foldl_append_data]
  rfl

theorem escFlat_inj : ∀ cs₁ cs₂ : List Char,
    (cs₁.map fun c => (jsonEscapeChar c).data).flatten =
      (cs₂.map fun c => (jsonEscapeChar c).data).flatten → cs₁ = cs₂ := by
  intro cs₁
  induction cs₁ with
  | nil =>
    intro cs₂ h
    cases cs₂ with
    | nil => rfl
    | cons c t =>
      exfalso
      simp only [List.map_nil, List.map_cons, List.flatten] at h
      rcases List.exists_cons_of_ne_nil (escChar_data_ne_nil c) with ⟨x, xs, hx⟩
      rw [hx] at h
      simp at h
  | cons c₁ t₁ ih =>
    intro cs₂ h
    cases cs₂ with
    | nil =>
      exfalso
      simp only [List.map_nil, List.map_cons, List.flatten] at h
      rcases List.exists_cons_of_ne_nil (escChar_data_ne_nil c₁) with ⟨x, xs, hx⟩
      rw [hx] at h
      simp at h
    | cons c₂ t₂ =>
      simp only [List.map_cons, List.flatten] at h
      by_cases b₁ : c₁ = '\\'
      · by_cases b₂ : c₂ = '\\'
        · subst b₁; subst b₂
          rw [escChar_backslash] at h
          have ht := List.append_cancel_left h
          rw [ih t₂ ht]
        · by_cases b₂' : c₂ = '"'
          · subst b₁; subst b₂'
            rw [escChar_backslash, escChar_quote] at h
            injection h with _ h
            injection h with hx _
            exact absurd hx (by decide)
          · subst b₁
            rw [escChar_backslash, escChar_plain b₂ b₂'] at h
            injection h with hx _
            exact absurd hx.symm b₂
      · by_cases b₁' : c₁ = '"'
        · by_cases b₂ : c₂ = '\\'
          · subst b₁'; subst b₂
            rw [escChar_quote, escChar_backslash] at h
            injection h with _ h
            injection h with hx _
            exact absurd hx (by decide)
          · by_cases b₂' : c₂ = '"'
            · subst b₁'; subst b₂'
              rw [escChar_quote] at h
              have ht := List.append_cancel_left h
              rw [ih t₂ ht]
            · subst b₁'
              rw [escChar_quote, escChar_plain b₂ b₂'] at h
              injection h with hx _
              exact absurd hx.symm b₂
        · by_cases b₂ : c₂ = '\\'
          · subst b₂
            rw [escChar_plain b₁ b₁', escChar_backslash] at h
            injection h with hx _
            exact absurd hx b₁
          · by_cases b₂' : c₂ = '"'
            · subst b₂'
              rw [escChar_plain b₁ b₁', escChar_quote] at h
              injection h with hx _
              exact absurd hx b₁
            · rw [escChar_plain b₁ b₁', escChar_plain b₂ b₂'] at h
              injection h with hc ht
              rw [hc, ih t₂ ht]

theorem jsonQuote_inj {s₁ s₂ : String} (h : jsonQuote s₁ = jsonQuote s₂) : s₁ = s₂ := by
  have hd := congrArg String.data h
  unfold jsonQuote at hd
  simp only [String.data_append, string_join_data, List.map_map] at hd
  have hX : (s₁.data.map fun c => (jsonEscapeChar c).data).flatten =
      (s₂.data.map fun c => (jsonEscapeChar c).data).flatten := by
    simpa [Function.comp] using hd
  exact string_data_inj (escFlat_inj _ _ hX)

theorem jsonDumps_vNone_eq : jsonDumps .vNone = "null" := by
  simp [jsonDumps]

theorem jsonDumps_vBool_eq (b : Bool) :
    jsonDumps (.vBool b) = if b then "true" else "false" := by
  simp [jsonDumps]

theorem jsonDumps_vInt_eq (i : Int) : jsonDumps (.vInt i) = toString i := by
  simp [jsonDumps]

theorem jsonDumps_vStr_eq (s : String) : jsonDumps (.vStr s) = jsonQuote s := by
  simp [jsonDumps]

theorem jsonQuote_head (s : String) : (jsonQuote s).data.head? = some '"' := rfl

theorem jsonDumps_prim_inj : ∀ p₁ p₂ : PyVal, isPrimitivePy p₁ = true →
    isPrimitivePy p₂ = true → jsonDumps p₁ = jsonDumps p₂ → p₁ = p₂ := by
  have hBoolNull : ∀ b : Bool, (if b then "true" else "false") ≠ ("null" : String) := by decide
  have hBoolHead : ∀ b : Bool,
      ((if b then "true" else "false") : String).data.head? = some (if b then 't' else 'f') := by
    decide
  have hNullHead : ("null" : String).data.head? = some 'n' := rfl
  have hIntNe : ∀ (i : Int) (c : Char), c ≠ '-' → (∀ d, d < 10 → c ≠ Nat.digitChar d) →
      (toString i).data.head? ≠ some c := by
    intro i c hc hd h
    rcases intToString_head i with ⟨d, hdlt, hh⟩ | hh
    · rw [hh] at h
      injection h with h
      exact hd d hdlt h.symm
    · rw [hh] at h
      injection h with h
      exact hc h.symm
  intro p₁ p₂ h₁ h₂ h
  have hheads : (jsonDumps p₁).data.head? = (jsonDumps p₂).data.head? := by rw [h]
  cases p₁ with
  | vNone =>
    cases p₂ with
    | vNone => rfl
    | vBool b =>
      rw [jsonDumps_vNone_eq, jsonDumps_vBool_eq] at h
      exact absurd h.symm (hBoolNull b)
    | vInt i =>
      rw [jsonDumps_vNone_eq, jsonDumps_vInt_eq] at hheads
      rw [hNullHead] at hheads
      exact absurd hheads.symm (hIntNe i 'n' (by decide)
        (fun d hd => ((digitChar_not_special d hd).1).symm))
    | vStr s =>
      rw [jsonDumps_vNone_eq, jsonDumps_vStr_eq, hNullHead, jsonQuote_head] at hheads
      exact absurd hheads (by decide)
    | vList l => simp [isPrimitivePy] at h₂
    | vDict l => simp [isPrimitivePy] at h₂
    | vInst a b c => simp [isPrimitivePy] at h₂
  | vBool b₁ =>
    cases p₂ with
    | vNone =>
      rw [jsonDumps_vNone_eq, jsonDumps_vBool_eq] at h
      exact absurd h (hBoolNull b₁)
    | vBool b₂ =>
      rw [jsonDumps_vBool_eq, jsonDumps_vBool_eq] at h
      cases b₁ <;> cases b₂ <;> first
        | rfl
        | exact absurd h (by decide)
    | vInt i =>
      rw [jsonDumps_vBool_eq, jsonDumps_vInt_eq, hBoolHead b₁] at hheads
      cases b₁ with
      | true =>
        exact absurd hheads.symm (hIntNe i 't' (by decide)
          (fun d hd => ((digitChar_not_special d hd).2.1).symm))
      | false =>
        exact absurd hheads.symm (hIntNe i 'f' (by decide)
          (fun d hd => ((digitChar_not_special d hd).2.2.1).symm))
    | vStr s =>
      rw [jsonDumps_vBool_eq, jsonDumps_vStr_eq, hBoolHead b₁, jsonQuote_head] at hheads
      cases b₁ <;> exact absurd hheads (by decide)
    | vList l => simp [isPrimitivePy] at h₂
    | vDict l => simp [isPrimitivePy] at h₂
    | vInst a b c => simp [isPrimitivePy] at h₂
  | vInt i₁ =>
    cases p₂ with
    | vNone =>
      rw [jsonDumps_vNone_eq, jsonDumps_vInt_eq, hNullHead] at hheads
      exact absurd hheads (hIntNe i₁ 'n' (by decide)
        (fun d hd => ((digitChar_not_special d hd).1).symm))
    | vBool b =>
      rw [jsonDumps_vBool_eq, jsonDumps_vInt_eq, hBoolHead b] at hheads
      cases b with
      | true =>
        exact absurd hheads (hIntNe i₁ 't' (by decide)
          (fun d hd => ((digitChar_not_special d hd).2.1).symm))
      | false =>
        exact absurd hheads (hIntNe i₁ 'f' (by decide)
          (fun d hd => ((digitChar_not_special d hd).2.2.1).symm))
    | vInt i₂ =>
      rw [jsonDumps_vInt_eq, jsonDumps_vInt_eq] at h
      exact congrArg PyVal.vInt (intToString_injective h)
    | vStr s =>
      rw [jsonDumps_vInt_eq, jsonDumps_vStr_eq, jsonQuote_head] at hheads
      exact absurd hheads (hIntNe i₁ '"' (by decide)
        (fun d hd => ((digitChar_not_special d hd).2.2.2.2).symm))
    | vList l => simp [isPrimitivePy] at h₂
    | vDict l => simp [isPrimitivePy] at h₂
    | vInst a b c => simp [isPrimitivePy] at h₂
  | vStr s₁ =>
    cases p₂ with
    | vNone =>
      rw [jsonDumps_vNone_eq, jsonDumps_vStr_eq, hNullHead, jsonQuote_head] at hheads
      exact absurd hheads (by decide)
    | vBool b =>
      rw [jsonDumps_vBool_eq, jsonDumps_vStr_eq, hBoolHead b, jsonQuote_head] at hheads
      cases b <;> exact absurd hheads (by decide)
    | vInt i =>
      rw [jsonDumps_vInt_eq, jsonDumps_vStr_eq, jsonQuote_head] at hheads
      exact absurd hheads.symm (hIntNe i '"' (by decide)
        (fun d hd => ((digitChar_not_special d hd).2.2.2.2).symm))
    | vStr s₂ =>
      rw [jsonDumps_vStr_eq, jsonDumps_vStr_eq] at h
      exact congrArg PyVal.vStr (jsonQuote_inj h)
    | vList l => simp [isPrimitivePy] at h₂
    | vDict l => simp [isPrimitivePy] at h₂
    | vInst a b c => simp [isPrimitivePy] at h₂
  | vList l => simp [isPrimitivePy] at h₁
  | vDict l => simp [isPrimitivePy] at h₁
  | vInst a b c => simp [isPrimitivePy] at h₁

theorem args_le_kwargs : ("args" : String) ≤ "kwargs" := by
  simp
  decide

theorem sortPairs_args_kwargs (EA EK : String) :
    sortPairs [("args", EA), ("kwargs", EK)] = [("args", EA), ("kwargs", EK)] := by
  unfold sortPairs
  simp only [List.foldr_cons, List.foldr_nil]
  rw [show sortPairs.insertSorted ("kwargs", EK) [] = [("kwargs", EK)] from rfl]
  rw [show sortPairs.insertSorted ("args", EA) [("kwargs", EK)] =
      if ("args" : String) ≤ "kwargs" then [("args", EA), ("kwargs", EK)]
      else ("kwargs", EK) :: sortPairs.insertSorted ("args", EA) [] from rfl]
  rw [if_pos args_le_kwargs]

theorem joinComma_singleton (x : String) : joinComma [x] = x := rfl

theorem get_cache_key_eq_implies_mid (args₁ args₂ : List PyVal)
    (kwargs : List (String × PyVal))
    (h : get_cache_key args₁ kwargs = get_cache_key args₂ kwargs) :
    joinComma (jsonDumpsList (_process_args_for_cache_key args₁)) =
      joinComma (jsonDumpsList (_process_args_for_cache_key args₂)) := by
  unfold get_cache_key md5hex at h
  simp only [jsonDumps, jsonDumpsPairs] at h
  rw [sortPairs_args_kwargs, sortPairs_args_kwargs] at h
  simp only [List.map_cons, List.map_nil, joinComma_cons_cons, joinComma_singleton] at h
  have hd := congrArg String.data h
  simp only [String.data_append, List.append_assoc] at hd
  exact string_data_inj (List.append_cancel_right
    (List.append_cancel_left (List.append_cancel_left
      (List.append_cancel_left (List.append_cancel_left hd)))))

theorem process_append_primitive (pre post : List PyVal) (p : PyVal)
    (hp : isPrimitivePy p = true) :
    _process_args_for_cache_key (pre ++ p :: post) =
      _process_args_for_cache_key pre ++ p :: _process_args_for_cache_key post := by
  have hinst : _is_class_instance p = false := by
    cases p <;> first | rfl | simp [isPrimitivePy] at hp
  unfold _process_args_for_cache_key
  rw [List.map_append, List.map_cons]
  simp [hinst]

/-! ## Claim theorems -/

/-- C9, counterexample: the claim states `is_expired` returns true at the
exact instant `now = created_at + ttl`. For the entry with
`created_at = 0`, `ttl = 1`, at `now = 1` we have `now ≥ created_at + ttl`,
yet `is_expired` returns `false` — the source comparison
`created_at + ttl < now` is strict. -/
theorem C9_is_expired_counterexample :
    CacheEntry.is_expired (α := Int) { value := 7, created_at := 0, ttl := some 1 } 1
      = false ∧ (0 : Int) + 1 ≤ 1 := by
  constructor
  · rfl
  · decide

/-- C9, amended: `is_expired()` returns true iff `ttl` is set and
`created_at + ttl < now` (STRICT inequality) — at the exact instant
`now = created_at + ttl` the entry still counts as unexpired. -/
theorem C9_is_expired_strict {α : Type} (e : CacheEntry α) (now : Int) :
    e.is_expired now = true ↔ ∃ t, e.ttl = some t ∧ e.created_at + t < now := by
  cases e with
  | mk v c t =>
    cases t with
    | none => simp [CacheEntry.is_expired]
    | some t => simp [CacheEntry.is_expired]

/-- C7, counterexample: the claim states a corrupt persisted record is
evicted (its file deleted) on read. For a store holding one corrupt
record, `get` and `exists` do answer absent/false, but the file is still
present afterwards — the source's `except` handler only logs and
returns, it never unlinks. -/
theorem C7_corrupt_counterexample :
    (FileCacheBackend.get (α := Int) ⟨[("k", .corrupt)]⟩ "k" 5).1 = none ∧
    (FileCacheBackend.existsKey (α := Int) ⟨[("k", .corrupt)]⟩ "k" 5).1 = false ∧
    ((FileCacheBackend.get (α := Int) ⟨[("k", .corrupt)]⟩ "k" 5).2).files
      = [("k", .corrupt)] ∧
    ((FileCacheBackend.existsKey (α := Int) ⟨[("k", .corrupt)]⟩ "k" 5).2).files
      = [("k", .corrupt)] := by
  refine ⟨rfl, rfl, rfl, rfl⟩

/-- C7, amended: for `FileCacheBackend`, an unreadable/corrupt persisted
record makes `get` return absent and `exists` return false with no
exception propagating, but the corrupt file is NOT deleted — the store
is returned unchanged. -/
theorem C7_corrupt_read_is_miss_without_eviction {α : Type}
    (b : FileCacheBackend α) (key : String) (now : Int)
    (h : lookupKey key b.files = some .corrupt) :
    b.get key now = (none, b) ∧ b.existsKey key now = (false, b) := by
  unfold FileCacheBackend.get FileCacheBackend.existsKey
  rw [h]
  exact ⟨rfl, rfl⟩

/-- C7, witness for the amended theorem at a one-record store. -/
theorem C7_corrupt_read_is_miss_without_eviction_witness :
    lookupKey "k" [("k", (FileContent.corrupt : FileContent Int))] = some .corrupt ∧
    (FileCacheBackend.get (α := Int) ⟨[("k", .corrupt)]⟩ "k" 5 = (none, ⟨[("k", .corrupt)]⟩) ∧
     FileCacheBackend.existsKey (α := Int) ⟨[("k", .corrupt)]⟩ "k" 5 = (false, ⟨[("k", .corrupt)]⟩)) :=
  ⟨rfl, C7_corrupt_read_is_miss_without_eviction ⟨[("k", .corrupt)]⟩ "k" 5 rfl⟩

/-- C6, counterexample: the claim states a configuration with
`min_tokens_per_chunk` not strictly below `max_tokens_per_chunk` is
rejected at load. Loading `max = 5, min = 10` succeeds — pydantic only
checks field presence and typing, and `0 < min < max` fails for the
accepted values. -/
theorem C6_load_counterexample :
    ChunkConfig.load
      { max_tokens_per_chunk := some 5, min_tokens_per_chunk := some 10,
        paragraph_separator := some "\n\n", safe_break_keywords := some [],
        use_llm_for_refinement := none } =
      .ok { max_tokens_per_chunk := 5, min_tokens_per_chunk := 10,
            paragraph_separator := "\n\n", safe_break_keywords := [],
            use_llm_for_refinement := false } ∧
    ¬ ((0 : Int) < 10 ∧ (10 : Int) < 5) := by
  exact ⟨rfl, by decide⟩

/-- C6, amended: loading a chunking configuration validates only that
the required fields are present (and well-typed); whenever they are, the
load succeeds with exactly those values — no ordering or positivity
constraint between `min_tokens_per_chunk` and `max_tokens_per_chunk` is
enforced, so configurations violating `0 < min < max` construct
successfully. Missing required fields do raise at load. -/
theorem C6_load_accepts_any_present_fields (raw : RawChunkingSection)
    (maxT minT : Int) (sep : String) (kws : List String)
    (h1 : raw.max_tokens_per_chunk = some maxT)
    (h2 : raw.min_tokens_per_chunk = some minT)
    (h3 : raw.paragraph_separator = some sep)
    (h4 : raw.safe_break_keywords = some kws) :
    ChunkConfig.load raw =
      .ok { max_tokens_per_chunk := maxT, min_tokens_per_chunk := minT,
            paragraph_separator := sep, safe_break_keywords := kws,
            use_llm_for_refinement := raw.use_llm_for_refinement.getD false } := by
  unfold ChunkConfig.load
  rw [h1, h2, h3, h4]

/-- C6, witness: the amended theorem applied to an inverted-threshold
configuration (min 10 > max 5), which loads successfully. -/
theorem C6_load_accepts_any_present_fields_witness :
    (RawChunkingSection.max_tokens_per_chunk
        { max_tokens_per_chunk := some 5, min_tokens_per_chunk := some 10,
          paragraph_separator := some "。", safe_break_keywords := some ["数日后"],
          use_llm_for_refinement := some true } = some 5) ∧
    ChunkConfig.load
      { max_tokens_per_chunk := some 5, min_tokens_per_chunk := some 10,
        paragraph_separator := some "。", safe_break_keywords := some ["数日后"],
        use_llm_for_refinement := some true } =
      .ok { max_tokens_per_chunk := 5, min_tokens_per_chunk := 10,
            paragraph_separator := "。", safe_break_keywords := ["数日后"],
            use_llm_for_refinement := (some true).getD false } :=
  ⟨rfl, C6_load_accepts_any_present_fields _ 5 10 "。" ["数日后"] rfl rfl rfl rfl⟩

/-- C2, counterexample: the claim states that after `max_size = N`
distinct unexpired entries are stored, one further `set` with a fresh
key removes the oldest entry. With `N = 1`: store `"a"` (the backend now
holds `N` entries), then `set "b"` — nothing is removed, both entries
are present and the size is `N + 1 = 2`, because `_evict_lru` fires only
when the size already STRICTLY exceeds `max_size` before the insert. -/
theorem C2_eviction_counterexample :
    ((MemoryCacheBackend.empty Int 1).set "a" 10 none 0).cache.length = 1 ∧
    (((MemoryCacheBackend.empty Int 1).set "a" 10 none 0).set "b" 20 none 1).cache =
      [("a", { value := 10, created_at := 0, ttl := none }),
       ("b", { value := 20, created_at := 1, ttl := none })] :=
  ⟨rfl, rfl⟩

/-- C2, amended: eviction happens one insert later than the claim
states. For a `MemoryCacheBackend` already holding `max_size + 1`
distinct unexpired entries, a further `set` with a fresh key removes
exactly one existing entry — one whose `created_at` is minimal over the
whole cache — and appends the new entry. -/
theorem C2_eviction_after_exceeding {α : Type} (b : MemoryCacheBackend α)
    (key : String) (v : α) (ttl : Option Int) (now : Int)
    (hnd : (b.cache.map Prod.fst).Nodup)
    (hlive : ∀ p ∈ b.cache, p.2.is_expired now = false)
    (hsize : b.cache.length = b.max_size + 1)
    (hfresh : lookupKey key b.cache = none) :
    ∃ k₀ e₀, lookupKey k₀ b.cache = some e₀ ∧
      (∀ p ∈ b.cache, e₀.created_at ≤ p.2.created_at) ∧
      (b.set key v ttl now).cache =
        eraseKey k₀ b.cache ++ [(key, { value := v, created_at := now, ttl := ttl })] := by
  have hcleaneq : b.cleanup_expired now = b := by
    unfold MemoryCacheBackend.cleanup_expired
    rw [List.filter_eq_self.mpr (fun p hp => by simp [hlive p hp])]
  cases ho : oldestKey b.cache with
  | none =>
    have hnil : b.cache = [] := (oldestKey_eq_none_iff _).mp ho
    rw [hnil] at hsize
    simp at hsize
  | some k₀ =>
    rcases oldestKey_minimal hnd ho with ⟨e₀, hlook, hmin⟩
    refine ⟨k₀, e₀, hlook, hmin, ?_⟩
    rw [set_cache_eq, hcleaneq]
    have hgt : b.cache.length > b.max_size := by omega
    have hevict : (b.evict_lru).cache = eraseKey k₀ b.cache := by
      unfold MemoryCacheBackend.evict_lru
      rw [if_pos hgt, ho]
    rw [hevict]
    exact setKey_of_not_mem _ (lookupKey_eraseKey_none _ hfresh)

/-- C2, witness for the amended theorem: a backend with `max_size = 1`
holding two live entries; `set "c"` evicts the oldest (`"a"`) and
appends `"c"`. -/
theorem C2_eviction_after_exceeding_witness :
    ((twoEntryBackend.cache.map Prod.fst).Nodup) ∧
    (∃ k₀ e₀, lookupKey k₀ twoEntryBackend.cache = some e₀ ∧
      (∀ p ∈ twoEntryBackend.cache, e₀.created_at ≤ p.2.created_at) ∧
      (twoEntryBackend.set "c" 30 none 2).cache =
        eraseKey k₀ twoEntryBackend.cache ++
          [("c", { value := 30, created_at := 2, ttl := none })]) :=
  ⟨by decide,
   C2_eviction_after_exceeding twoEntryBackend "c" 30 none 2
     (by decide) (by decide) (by decide) (by decide)⟩

/-- C10: over every sequence of timestamped `get`/`set`/`delete`/
`exists` calls on a `MemoryCacheBackend` constructed with
`max_size = N ≥ 1`, the stored entry count never exceeds `N + 1`
(`_evict_lru` runs before the insert and only when the size already
exceeds the bound, so the size can rest at `N + 1`); and each single
`set` removes at most one of the entries surviving the expiry purge. -/
theorem C10_size_bound {α : Type} (N : Nat) (_hN : 1 ≤ N)
    (ops : List (CacheOp α × Int)) :
    (runOps (MemoryCacheBackend.empty α N) ops).cache.length ≤ N + 1 ∧
    ∀ (b : MemoryCacheBackend α) (k : String) (v : α) (ttl : Option Int) (now : Int),
      (b.cleanup_expired now).cache.length ≤ (b.set k v ttl now).cache.length + 1 := by
  constructor
  · have h := runOps_invariant ops (MemoryCacheBackend.empty α N)
      (by simp [MemoryCacheBackend.empty])
    rw [runOps_max_size] at h
    exact h
  · intro b k v ttl now
    exact set_evicts_at_most_one b k v ttl now

/-- C10, witness: a run of four operations on a backend with
`max_size = 1` stays within the `N + 1 = 2` bound. -/
theorem C10_size_bound_witness :
    1 ≤ 1 ∧
    ((runOps (MemoryCacheBackend.empty Int 1)
        [(.set "a" 10 none, 0), (.set "b" 20 none, 1),
         (.set "c" 30 none, 2), (.get "a", 3)]).cache.length ≤ 1 + 1 ∧
     ∀ (b : MemoryCacheBackend Int) (k : String) (v : Int) (ttl : Option Int) (now : Int),
       (b.cleanup_expired now).cache.length ≤ (b.set k v ttl now).cache.length + 1) :=
  ⟨Nat.le_refl 1, C10_size_bound 1 (Nat.le_refl 1) _⟩

/-- C4: through the `CacheManager.cached(ttl)` wrapper on a memory
backend, a first call whose derived key is not cached invokes `f`,
returns its result, and stores it under the key with the given `ttl`;
a second call with equal arguments, made before the stored entry
expires, returns the stored value without invoking `f` — so `f` runs
exactly once across the two calls. -/
theorem C4_cached_hit_miss {α : Type} (b : MemoryCacheBackend α) (ttl : Option Int)
    (f : List PyVal → List (String × PyVal) → α)
    (args : List PyVal) (kwargs : List (String × PyVal)) (now₁ now₂ : Int)
    (hfresh : lookupKey (get_cache_key args kwargs) b.cache = none)
    (hlive : ∀ t, ttl = some t → ¬ (now₁ + t < now₂)) :
    (cachedCall b ttl f args kwargs now₁).1 = some (f args kwargs) ∧
    (cachedCall b ttl f args kwargs now₁).2.2 = true ∧
    lookupKey (get_cache_key args kwargs)
      ((cachedCall b ttl f args kwargs now₁).2.1).cache =
      some { value := f args kwargs, created_at := now₁, ttl := ttl } ∧
    (cachedCall ((cachedCall b ttl f args kwargs now₁).2.1) ttl f args kwargs now₂).1
      = some (f args kwargs) ∧
    (cachedCall ((cachedCall b ttl f args kwargs now₁).2.1) ttl f args kwargs now₂).2.2
      = false := by
  have hex1 := existsKey_of_fresh (b := b) now₁ hfresh
  have hcall1 : cachedCall b ttl f args kwargs now₁ =
      (some (f args kwargs),
       (b.cleanup_expired now₁).set (get_cache_key args kwargs) (f args kwargs) ttl now₁,
       true) := by
    simp [cachedCall, hex1]
  have hlookB1 : lookupKey (get_cache_key args kwargs)
      ((b.cleanup_expired now₁).set (get_cache_key args kwargs) (f args kwargs) ttl now₁).cache =
      some { value := f args kwargs, created_at := now₁, ttl := ttl } := by
    rw [set_cache_eq]
    exact lookupKey_setKey_self _ _ _
  have helive : ({ value := f args kwargs, created_at := now₁, ttl := ttl } :
      CacheEntry α).is_expired now₂ = false := by
    cases ttl with
    | none => rfl
    | some t =>
      show decide (now₁ + t < now₂) = false
      exact decide_eq_false (hlive t rfl)
  have hex2 := existsKey_of_live now₂ hlookB1 helive
  have hlook2 : lookupKey (get_cache_key args kwargs)
      ((((b.cleanup_expired now₁).set (get_cache_key args kwargs) (f args kwargs) ttl
          now₁).cleanup_expired now₂)).cache =
      some { value := f args kwargs, created_at := now₁, ttl := ttl } :=
    lookupKey_filter_some hlookB1 (by simp [helive])
  have hget := get_of_live now₂ hlook2 helive
  rw [hcall1]
  refine ⟨rfl, rfl, hlookB1, ?_, ?_⟩ <;>
    simp [cachedCall, hex2, hget]

/-- C4, witness: a constant collaborator through an empty backend —
first call computes and stores, second call answers from the cache. -/
theorem C4_cached_hit_miss_witness :
    lookupKey (get_cache_key [.vInt 5] []) (MemoryCacheBackend.empty Int 1000).cache
      = none ∧
    ((cachedCall (MemoryCacheBackend.empty Int 1000) none (fun _ _ => 42) [.vInt 5] [] 0).1
        = some 42 ∧
     (cachedCall (MemoryCacheBackend.empty Int 1000) none (fun _ _ => 42) [.vInt 5] [] 0).2.2
        = true ∧
     lookupKey (get_cache_key [.vInt 5] [])
       ((cachedCall (MemoryCacheBackend.empty Int 1000) none (fun _ _ => 42) [.vInt 5] [] 0).2.1).cache
        = some { value := 42, created_at := 0, ttl := none } ∧
     (cachedCall
        ((cachedCall (MemoryCacheBackend.empty Int 1000) none (fun _ _ => 42) [.vInt 5] [] 0).2.1)
        none (fun _ _ => 42) [.vInt 5] [] 10).1 = some 42 ∧
     (cachedCall
        ((cachedCall (MemoryCacheBackend.empty Int 1000) none (fun _ _ => 42) [.vInt 5] [] 0).2.1)
        none (fun _ _ => 42) [.vInt 5] [] 10).2.2 = false) :=
  ⟨rfl,
   C4_cached_hit_miss (MemoryCacheBackend.empty Int 1000) none (fun _ _ => 42)
     [.vInt 5] [] 0 10 rfl (fun _ ht => Option.noConfusion ht)⟩

/-- C5, counterexample: the claim states every non-primitive argument
value is replaced by its type-name tag whether passed positionally or as
a keyword argument, so two calls differing only in the identity of such
instances produce the same key. `_process_args_for_cache_key` is applied
to `args` ONLY — a class instance passed as a keyword-argument value
falls through to `json.dumps(..., default=str)`, whose `str(obj)`
rendering embeds the object identity, so two instances of the same type
yield different canonical encodings and hence different keys. -/
theorem C5_kwargs_instance_counterexample :
    get_cache_key [] [("c", .vInst "m" "C" 1)] ≠
      get_cache_key [] [("c", .vInst "m" "C" 2)] := by
  simp only [get_cache_key, md5hex, _process_args_for_cache_key, jsonDumps,
    jsonDumpsPairs, jsonDumpsList, sortPairs, sortPairs.insertSorted, joinComma,
    jsonQuote, pyStrOfInst, fullClassName, List.map_nil, List.map_cons,
    List.foldr_cons, List.foldr_nil]
  simp
  decide

/-- C5, amended: `get_cache_key` is a deterministic function of the
argument lists. POSITIONAL class-instance arguments are replaced by the
`"<class_instance:module.Class>"` tag, so positional argument lists
that agree except for the object identity of same-typed instances map
to the same key (keyword arguments, by contrast, are serialised raw and
remain identity-sensitive, as the counterexample shows); and two calls
whose positional arguments differ in one primitive value (with the key
(in)equality read at the injectively-modelled digest, i.e. at the
canonical pre-hash encoding) produce DIFFERENT keys. -/
theorem C5_cache_key_instance_and_primitive_contract
    (args₁ args₂ pre post : List PyVal) (p₁ p₂ : PyVal)
    (kwargs : List (String × PyVal))
    (hinst : List.Forall₂ instEquiv args₁ args₂)
    (hp₁ : isPrimitivePy p₁ = true) (hp₂ : isPrimitivePy p₂ = true)
    (hne : p₁ ≠ p₂) :
    get_cache_key args₁ kwargs = get_cache_key args₂ kwargs ∧
    get_cache_key (pre ++ p₁ :: post) kwargs ≠
      get_cache_key (pre ++ p₂ :: post) kwargs := by
  constructor
  · have hp : _process_args_for_cache_key args₁ = _process_args_for_cache_key args₂ := by
      induction hinst with
      | nil => rfl
      | cons hab htl ih =>
        simp only [_process_args_for_cache_key, List.map_cons] at ih ⊢
        rw [ih]
        rcases hab with rfl | ⟨m, c, i, j, rfl, rfl⟩
        · rfl
        · rfl
    unfold get_cache_key
    rw [hp]
  · intro h
    have hmid := get_cache_key_eq_implies_mid _ _ _ h
    rw [process_append_primitive pre post p₁ hp₁,
      process_append_primitive pre post p₂ hp₂,
      jsonDumpsList_eq_map, jsonDumpsList_eq_map,
      List.map_append, List.map_cons, List.map_append, List.map_cons] at hmid
    exact hne (jsonDumps_prim_inj p₁ p₂ hp₁ hp₂ (joinComma_middle_inj _ _ _ _ hmid))

/-- C5, witness: positional argument lists whose instances differ only
in identity produce equal keys, while replacing the primitive `1` by
`2` in a positional slot produces a different key. -/
theorem C5_cache_key_contract_witness :
    List.Forall₂ instEquiv [.vInt 3, .vInst "m" "C" 1] [.vInt 3, .vInst "m" "C" 2] ∧
    isPrimitivePy (.vInt 1) = true ∧ isPrimitivePy (.vInt 2) = true ∧
    (PyVal.vInt 1 ≠ PyVal.vInt 2) ∧
    (get_cache_key [.vInt 3, .vInst "m" "C" 1] [("k", .vStr "x")] =
       get_cache_key [.vInt 3, .vInst "m" "C" 2] [("k", .vStr "x")] ∧
     get_cache_key ([.vStr "q"] ++ PyVal.vInt 1 :: []) [("k", .vStr "x")] ≠
       get_cache_key ([.vStr "q"] ++ PyVal.vInt 2 :: []) [("k", .vStr "x")]) :=
  ⟨List.Forall₂.cons (Or.inl rfl)
     (List.Forall₂.cons (Or.inr ⟨"m", "C", 1, 2, rfl, rfl⟩) List.Forall₂.nil),
   rfl, rfl, by simp,
   C5_cache_key_instance_and_primitive_contract
     [.vInt 3, .vInst "m" "C" 1] [.vInt 3, .vInst "m" "C" 2]
     [.vStr "q"] [] (.vInt 1) (.vInt 2) [("k", .vStr "x")]
     (List.Forall₂.cons (Or.inl rfl)
       (List.Forall₂.cons (Or.inr ⟨"m", "C", 1, 2, rfl, rfl⟩) List.Forall₂.nil))
     rfl rfl (by simp)⟩

/-- C1: evaluation of the chunker at a failing input for the
completeness claim. The chapter `"aa\n\nbbbb"` splits into the non-empty
paragraphs `["aa", "bbbb"]` (budget 3, minimum 2, token count = length).
Appending `"bbbb"` would overflow the budget, the buffer `"aa"` has
already reached the minimum, but no safe-break pattern matches and
refinement is off — none of the three branches fires, so the loop moves
on WITHOUT writing `"bbbb"` anywhere: the output is the single chunk
`"aa"` and the paragraph `"bbbb"` is silently dropped, violating
completeness. -/
theorem C1_completeness_failing_input :
    split_into_paragraphs "aa\n\nbbbb" "\n\n" = ["aa", "bbbb"] ∧
    chunk_novel_text cfgSmall charCount noMatch noSplit ["aa\n\nbbbb"] =
      [{ start_chapter_idx := 1, end_chapter_idx := 1, text := "aa",
         estimated_tokens := 2, is_natural_break := true, break_reason := "文本结束" }] ∧
    ((chunk_novel_text cfgSmall charCount noMatch noSplit ["aa\n\nbbbb"]).map
      TextChunk.text) = ["aa"] :=
  ⟨rfl, rfl, rfl⟩

/-- C3: evaluation of the chunker at a failing input for the
degenerate-accumulation claim. With minimum 3, the buffer `"aa"`
(2 tokens) is still below the minimum when appending `"bbbb"` would
overflow the budget; the claim says `"bbbb"` is nevertheless committed
to the buffer (so the final chunk would read `"aa\n\nbbbb"`), but the
code takes no branch and discards `"bbbb"`: the output is the single
chunk `"aa"`. -/
theorem C3_degenerate_accumulation_failing_input :
    charCount "aa" < cfgSmallMin3.min_tokens_per_chunk ∧
    chunk_novel_text cfgSmallMin3 charCount noMatch noSplit ["aa\n\nbbbb"] =
      [{ start_chapter_idx := 1, end_chapter_idx := 1, text := "aa",
         estimated_tokens := 2, is_natural_break := true, break_reason := "文本结束" }] :=
  ⟨by decide, rfl⟩

/-- C8, counterexample: the claim states that malformed arbiter output
(more than two parts, parts not concatenating back to the input) is
treated as "no split found" and the buffer is emitted as ONE forced
chunk with `is_natural_break = false`. With an arbiter answering
`["X", "Y", "Z"]` on buffer `"aa"` (three parts, concatenation `"XYZ"`
≠ `"aa"`), the chunker instead emits all three parts verbatim as chunks
with `is_natural_break = true`. -/
theorem C8_arbiter_counterexample :
    badArbiter "aa" = ["X", "Y", "Z"] ∧
    ("X" ++ "Y" ++ "Z" : String) ≠ "aa" ∧
    chunk_novel_text cfgSmallLLM charCount noMatch badArbiter ["aa\n\nbbbb"] =
      [{ start_chapter_idx := 1, end_chapter_idx := 1, text := "X",
         estimated_tokens := 1, is_natural_break := true,
         break_reason := "大模型判断结果是剧情分段" },
       { start_chapter_idx := 1, end_chapter_idx := 1, text := "Y",
         estimated_tokens := 1, is_natural_break := true,
         break_reason := "大模型判断结果是剧情分段" },
       { start_chapter_idx := 1, end_chapter_idx := 1, text := "Z",
         estimated_tokens := 1, is_natural_break := true,
         break_reason := "大模型判断结果是剧情分段" },
       { start_chapter_idx := 1, end_chapter_idx := 1, text := "bbbb",
         estimated_tokens := 4, is_natural_break := true,
         break_reason := "文本结束" }] :=
  ⟨rfl, by decide, rfl⟩

/-- C8, amended: the chunker performs NO validation of the arbiter's
answer. Whenever the budget overflows with the buffer at or above the
minimum, no safe break matches, and refinement is enabled, every part
of a non-empty arbiter answer — whatever its length or content — is
emitted verbatim as a chunk with `is_natural_break = true` and reason
`"大模型判断结果是剧情分段"`; only an empty answer produces the single
forced chunk. Nothing is raised either way. -/
theorem C8_arbiter_parts_emitted_verbatim
    (config : ChunkConfig) (count : String → Int) (reSearch : String → String → Bool)
    (arbiter : String → List String) (chapter_num : Nat)
    (para : String) (rest : List String) (st : ChunkState)
    (hover : ¬ (count (pyStrip (st.current_chunk_text ++ "\n\n" ++ para)) ≤
      config.max_tokens_per_chunk))
    (hmin : count st.current_chunk_text ≥ config.min_tokens_per_chunk)
    (hsafe : is_safe_break_point reSearch para config = false)
    (hllm : config.use_llm_for_refinement = true)
    (hne : arbiter st.current_chunk_text ≠ []) :
    processParas config count reSearch arbiter chapter_num (para :: rest) st =
      processParas config count reSearch arbiter chapter_num rest
        { chunks := st.chunks ++ (arbiter st.current_chunk_text).map
            (fun chunk_text => _create_chunk count chunk_text st.current_start_chapter
              chapter_num true "大模型判断结果是剧情分段"),
          current_chunk_text := para,
          current_start_chapter := chapter_num } := by
  have hempty : (arbiter st.current_chunk_text).isEmpty = false := by
    cases harb : arbiter st.current_chunk_text with
    | nil => exact absurd harb hne
    | cons a as => rfl
  rw [processParas]
  rw [if_neg hover]
  rw [if_neg (by simp [hsafe])]
  rw [if_pos (by simp [hllm, hmin])]
  simp only [hempty, Bool.false_eq_true, if_false]

/-- C8, witness for the amended theorem at the counterexample's
state. -/
theorem C8_arbiter_parts_emitted_verbatim_witness :
    (¬ (charCount (pyStrip ("aa" ++ "\n\n" ++ "bbbb")) ≤
        cfgSmallLLM.max_tokens_per_chunk)) ∧
    processParas cfgSmallLLM charCount noMatch badArbiter 1 ["bbbb"]
        { chunks := [], current_chunk_text := "aa", current_start_chapter := 1 } =
      processParas cfgSmallLLM charCount noMatch badArbiter 1 []
        { chunks := [] ++ (badArbiter "aa").map
            (fun chunk_text => _create_chunk charCount chunk_text 1 1 true
              "大模型判断结果是剧情分段"),
          current_chunk_text := "bbbb",
          current_start_chapter := 1 } :=
  ⟨by decide,
   C8_arbiter_parts_emitted_verbatim cfgSmallLLM charCount noMatch badArbiter 1
     "bbbb" [] { chunks := [], current_chunk_text := "aa", current_start_chapter := 1 }
     (by decide) (by decide) rfl rfl (by decide)⟩

end NovelKB
